import Mathlib

/-!
Verification of the `JinaRerankerV3` rerank adapter
(`backend/open_webui/retrieval/models/jina_reranker_v3.py`).

The adapter converts a list of (query, document) pairs into one query plus
a document batch, invokes the external ranking model once, and reconciles
the returned (index, relevance_score) entries back into a score vector
aligned with the original document order.

Modelling decisions:
* Relevance scores are opaque data that the adapter only moves around
  (no arithmetic is performed on them); they are modelled as rationals,
  with the default value 0 standing for the Python literal 0.0.
* The external model call `self.model.rerank(...)` is a parameter of type
  `RerankFn`; a raised exception is modelled as `Except.error ()`, and a
  successful call yields the list stored under the `results` key.
* Each result entry is a duck-typed dict; a missing `index` or
  `relevance_score` key (a KeyError during reconciliation) is modelled by
  an `Option` field being `none`.
* `predictRun` additionally records the argument list of every model
  invocation the call performs, so that single-invocation claims are
  statable; `predict` is its output projection.
-/

/-- One entry of the `results` list returned by the model: a dict with the
keys `index` and `relevance_score`.  A `none` field models a dict from
which the key is missing, so that reading it raises. -/
structure RankEntry where
  index : Option Int
  relevance_score : Option ℚ
deriving DecidableEq, Repr

/-- The external ranking capability: query, documents, return_embeddings.
`Except.error ()` models a raised exception. -/
abbrev RerankFn := String → List String → Bool → Except Unit (List RankEntry)

/-- `query = sentences[0][0]` (only evaluated on a non-empty list). -/
def firstQuery (sentences : List (String × String)) : String :=
  (sentences.headD ("", "")).1

/-- `documents = [doc for _, doc in sentences]`. -/
def docBatch (sentences : List (String × String)) : List String :=
  sentences.map (fun p => p.2)

/-- One iteration of the reconciliation loop:
`idx = result[index]; score = result[relevance_score];
 if 0 <= idx < num_docs: scores[idx] = score else: log.warning(...)`.
A missing key raises, modelled as `Except.error ()`. -/
def applyResult (num_docs : Nat) (scores : List ℚ) (result : RankEntry) :
    Except Unit (List ℚ) :=
  match result.index with
  | none => .error ()
  | some idx =>
    match result.relevance_score with
    | none => .error ()
    | some score =>
      if 0 ≤ idx ∧ idx < (num_docs : Int) then
        .ok (scores.set idx.toNat score)
      else
        .ok scores

/-- The reconciliation loop `for result in results[results]: ...` run over
the initial score vector: each iteration either raises (propagating the
error) or updates the vector. -/
def reconcile (num_docs : Nat) : List ℚ → List RankEntry → Except Unit (List ℚ)
  | scores, [] => .ok scores
  | scores, result :: rest =>
    match applyResult num_docs scores result with
    | .error e => .error e
    | .ok scores2 => reconcile num_docs scores2 rest

/-- Outcome of one `predict` call: the list of model invocations it made
(each recorded as (query, documents, return_embeddings)) and the returned
value (`none` models Python `None`). -/
structure PredictRun where
  calls : List (String × List String × Bool)
  output : Option (List ℚ)
deriving DecidableEq

/-- `JinaRerankerV3.predict`, instrumented with the list of model calls.
Mirrors the source line by line: empty-input guard returning `None`;
query extraction from the first pair; document projection; one model
invocation with `return_embeddings=False`; reconciliation into a vector
initialised to `[0.0] * num_docs`; any exception inside the try block
yields `None`. -/
def predictRun (rerank : RerankFn) (sentences : List (String × String)) :
    PredictRun :=
  if sentences.isEmpty then
    ⟨[], none⟩
  else
    let query := firstQuery sentences
    let documents := docBatch sentences
    match rerank query documents false with
    | .error _ => ⟨[(query, documents, false)], none⟩
    | .ok results =>
      let num_docs := documents.length
      match reconcile num_docs (List.replicate num_docs (0 : ℚ)) results with
      | .error _ => ⟨[(query, documents, false)], none⟩
      | .ok scores => ⟨[(query, documents, false)], some scores⟩

/-- `JinaRerankerV3.predict`: the value returned to the caller. -/
def predict (rerank : RerankFn) (sentences : List (String × String)) :
    Option (List ℚ) :=
  (predictRun rerank sentences).output

/-- The contribution of one result entry to position `i` of the vector:
`some sc` exactly when the entry is well formed, in range, and addressed
at `i`. -/
def inRangeScoreAt (num_docs i : Nat) (e : RankEntry) : Option ℚ :=
  match e.index, e.relevance_score with
  | some idx, some sc =>
      if idx = (i : Int) ∧ i < num_docs then some sc else none
  | _, _ => none

/-- The score the reconciliation loop leaves at position `i`: the last
in-range write addressed at `i`, or the default 0. -/
def specScore (num_docs : Nat) (results : List RankEntry) (i : Nat) : ℚ :=
  (results.filterMap (inRangeScoreAt num_docs i)).getLastD 0

/-- Every entry carries both keys, as the RankingResult data model
promises. -/
def wellFormed (results : List RankEntry) : Prop :=
  ∀ e ∈ results, e.index ≠ none ∧ e.relevance_score ≠ none

instance (results : List RankEntry) : Decidable (wellFormed results) := by
  unfold wellFormed; infer_instance

/-- The bounds check `0 <= idx < num_docs` of the source, as a predicate
on entries (false when the index key is missing). -/
def entryInRange (num_docs : Nat) (e : RankEntry) : Bool :=
  match e.index with
  | some idx => decide (0 ≤ idx ∧ idx < (num_docs : Int))
  | none => false

/-! ### Structural lemmas about the reconciliation loop -/

/-- The loop never changes the length of the score vector. -/
lemma reconcile_length (num_docs : Nat) :
    ∀ (results : List RankEntry) (scores out : List ℚ),
      reconcile num_docs scores results = .ok out →
      out.length = scores.length := by
  intro results
  induction results with
  | nil =>
    intro scores out h
    simp only [reconcile] at h
    cases h
    rfl
  | cons e rest ih =>
    intro scores out h
    simp only [reconcile] at h
    cases he1 : e.index with
    | none => simp [applyResult, he1] at h
    | some idx =>
      cases he2 : e.relevance_score with
      | none => simp [applyResult, he1, he2] at h
      | some sc =>
        by_cases hc : 0 ≤ idx ∧ idx < (num_docs : Int)
        · simp only [applyResult, he1, he2, if_pos hc] at h
          have := ih (scores.set idx.toNat sc) out h
          simpa using this
        · simp only [applyResult, he1, he2, if_neg hc] at h
          exact ih scores out h

/-- A list equals the table of its entries. -/
lemma list_eq_map_range_getD (l : List ℚ) :
    l = (List.range l.length).map (fun i => l.getD i 0) := by
  apply List.ext_getElem
  · simp
  · intro i h1 h2
    simp [List.getD_eq_getElem?_getD, List.getElem?_eq_getElem h1]

/-- On well-formed results the loop succeeds, and each slot holds the last
in-range write addressed at it, defaulting to its initial value. -/
lemma reconcile_wf_eq (num_docs : Nat) :
    ∀ (results : List RankEntry), wellFormed results →
    ∀ scores : List ℚ, scores.length = num_docs →
      reconcile num_docs scores results =
        .ok ((List.range num_docs).map
          (fun i => (results.filterMap (inRangeScoreAt num_docs i)).getLastD
            (scores.getD i 0))) := by
  intro results
  induction results with
  | nil =>
    intro _ scores hlen
    simp only [reconcile, List.filterMap_nil, List.getLastD_nil]
    rw [← hlen, ← list_eq_map_range_getD]
  | cons e rest ih =>
    intro hwf scores hlen
    obtain ⟨hi, hs⟩ := hwf e (List.mem_cons_self e rest)
    cases he1 : e.index with
    | none => exact absurd he1 hi
    | some idx =>
      cases he2 : e.relevance_score with
      | none => exact absurd he2 hs
      | some sc =>
        have hwfr : wellFormed rest := fun x hx => hwf x (List.mem_cons_of_mem e hx)
        by_cases hc : 0 ≤ idx ∧ idx < (num_docs : Int)
        · simp only [reconcile, applyResult, he1, he2, if_pos hc]
          rw [ih hwfr (scores.set idx.toNat sc) (by simpa using hlen)]
          congr 1
          apply List.map_congr_left
          intro i hirange
          have hiN : i < num_docs := List.mem_range.mp hirange
          by_cases hidx : idx = (i : Int)
          · have htn : idx.toNat = i := by omega
            have hset : (scores.set idx.toNat sc).getD i 0 = sc := by
              rw [htn, List.getD_eq_getElem?_getD,
                List.getElem?_set_self (by omega)]
              rfl
            have hfa : inRangeScoreAt num_docs i e = some sc := by
              simp only [inRangeScoreAt, he1, he2]
              rw [if_pos (And.intro hidx hiN)]
            rw [hset]
            simp only [List.filterMap_cons, hfa, List.getLastD_cons]
          · have htn : idx.toNat ≠ i := by omega
            have hset : (scores.set idx.toNat sc).getD i 0 = scores.getD i 0 := by
              rw [List.getD_eq_getElem?_getD, List.getElem?_set_ne htn,
                ← List.getD_eq_getElem?_getD]
            have hfa : inRangeScoreAt num_docs i e = none := by
              simp only [inRangeScoreAt, he1, he2]
              rw [if_neg (by tauto)]
            rw [hset]
            simp only [List.filterMap_cons, hfa]
        · simp only [reconcile, applyResult, he1, he2, if_neg hc]
          rw [ih hwfr scores hlen]
          congr 1
          apply List.map_congr_left
          intro i hirange
          have hiN : i < num_docs := List.mem_range.mp hirange
          have hfa : inRangeScoreAt num_docs i e = none := by
            simp only [inRangeScoreAt, he1, he2]
            rw [if_neg (by omega)]
          simp only [List.filterMap_cons, hfa]

/-- `reconcile` started from the all-zero vector computes `specScore`
pointwise. -/
lemma reconcile_replicate_eq (num_docs : Nat) (results : List RankEntry)
    (hwf : wellFormed results) :
    reconcile num_docs (List.replicate num_docs (0 : ℚ)) results =
      .ok ((List.range num_docs).map (specScore num_docs results)) := by
  rw [reconcile_wf_eq num_docs results hwf _ (List.length_replicate num_docs 0)]
  congr 1
  apply List.map_congr_left
  intro i hirange
  have : (List.replicate num_docs (0 : ℚ)).getD i 0 = 0 := by
    rw [List.getD_eq_getElem?_getD, List.getElem?_replicate]
    split <;> rfl
  rw [specScore, this]

/-! ### Lemmas about `predict` -/

lemma docBatch_length (s : List (String × String)) :
    (docBatch s).length = s.length := by
  simp [docBatch]

lemma not_isEmpty_of_ne_nil {s : List (String × String)} (hne : s ≠ []) :
    ¬(s.isEmpty = true) := by
  simpa [List.isEmpty_iff] using hne

/-- A successful, well-formed model call makes `predict` return the
`specScore` table, and the adapter performs exactly the one recorded
model invocation. -/
lemma predictRun_ok (rerank : RerankFn) (s : List (String × String))
    (hne : s ≠ []) (results : List RankEntry)
    (hcall : rerank (firstQuery s) (docBatch s) false = .ok results)
    (hwf : wellFormed results) :
    predictRun rerank s =
      ⟨[(firstQuery s, docBatch s, false)],
        some ((List.range s.length).map (specScore s.length results))⟩ := by
  simp only [predictRun]
  rw [if_neg (not_isEmpty_of_ne_nil hne)]
  simp only [hcall, docBatch_length,
    reconcile_replicate_eq s.length results hwf]

/-- Inversion for `inRangeScoreAt`. -/
lemma inRangeScoreAt_eq_some {num_docs i : Nat} {e : RankEntry} {sc : ℚ}
    (h : inRangeScoreAt num_docs i e = some sc) :
    e.index = some (i : Int) ∧ e.relevance_score = some sc ∧ i < num_docs := by
  cases he1 : e.index with
  | none => simp [inRangeScoreAt, he1] at h
  | some idx =>
    cases he2 : e.relevance_score with
    | none => simp [inRangeScoreAt, he1, he2] at h
    | some sc2 =>
      simp only [inRangeScoreAt, he1, he2] at h
      by_cases hcond : idx = (i : Int) ∧ i < num_docs
      · rw [if_pos hcond] at h
        cases h
        exact ⟨by rw [hcond.1], rfl, hcond.2⟩
      · rw [if_neg hcond] at h
        cases h

/-- If all members of a non-empty list are equal to `a`, so is its last
element. -/
lemma getLastD_eq_of_all_eq {α : Type} (a : α) :
    ∀ l : List α, l ≠ [] → (∀ x ∈ l, x = a) → ∀ d, l.getLastD d = a := by
  intro l
  induction l with
  | nil => intro h; exact absurd rfl h
  | cons x xs ih =>
    intro _ hall d
    rw [List.getLastD_cons]
    cases hxs : xs with
    | nil => simpa using hall x (by simp)
    | cons y ys =>
      subst hxs
      exact ih (by simp) (fun z hz => hall z (List.mem_cons_of_mem _ hz)) x

/-- The last element of a list ending in `a` is `a`. -/
lemma getLastD_append_singleton {α : Type} (a : α) :
    ∀ (l : List α) (d : α), (l ++ [a]).getLastD d = a := by
  intro l
  induction l with
  | nil => intro d; rfl
  | cons x xs ih =>
    intro d
    rw [List.cons_append, List.getLastD_cons]
    exact ih x

/-- Reading a table built over `List.range`. -/
lemma getD_map_range (N i : Nat) (h : i < N) (f : Nat → ℚ) :
    ((List.range N).map f).getD i 0 = f i := by
  have h2 : i < ((List.range N).map f).length := by simpa using h
  rw [List.getD_eq_getElem?_getD, List.getElem?_eq_getElem h2]
  simp

/-- Entries rejected by the bounds check contribute nothing to any slot. -/
lemma filterMap_filter_inRange (num_docs i : Nat) :
    ∀ results : List RankEntry,
      (results.filter (entryInRange num_docs)).filterMap
          (inRangeScoreAt num_docs i) =
        results.filterMap (inRangeScoreAt num_docs i) := by
  intro results
  induction results with
  | nil => rfl
  | cons e rest ih =>
    by_cases hp : entryInRange num_docs e = true
    · rw [List.filter_cons_of_pos hp, List.filterMap_cons, List.filterMap_cons,
        ih]
    · have hfa : inRangeScoreAt num_docs i e = none := by
        cases hfa2 : inRangeScoreAt num_docs i e with
        | none => rfl
        | some sc =>
          obtain ⟨h1, _, h3⟩ := inRangeScoreAt_eq_some hfa2
          have : entryInRange num_docs e = true := by
            simp only [entryInRange, h1, decide_eq_true_eq]
            omega
          exact absurd this hp
      rw [List.filter_cons_of_neg (by simpa using hp), List.filterMap_cons,
        hfa, ih]

/-! ### Claim theorems -/

/-- C1: For a non-empty request of N pairs whose model call succeeds with
well-formed results that contain an entry for every index 0..N-1, and
where the model reports score `f i` for index `i`, predict returns the
length-N vector holding `f i` at position `i` — the original document
order of the caller, not the order of the results. -/
theorem predict_full_coverage (rerank : RerankFn) (s : List (String × String))
    (hne : s ≠ []) (results : List RankEntry) (f : Nat → ℚ)
    (hcall : rerank (firstQuery s) (docBatch s) false = .ok results)
    (hwf : wellFormed results)
    (hcover : ∀ i, i < s.length → ∃ e ∈ results, e.index = some (i : Int))
    (hreport : ∀ e ∈ results, ∀ i : Nat, i < s.length →
      e.index = some (i : Int) → e.relevance_score = some (f i)) :
    predict rerank s = some ((List.range s.length).map f) := by
  simp only [predict, predictRun_ok rerank s hne results hcall hwf]
  congr 1
  apply List.map_congr_left
  intro i hi
  have hiN : i < s.length := List.mem_range.mp hi
  obtain ⟨e, he, hidx⟩ := hcover i hiN
  have hsc : e.relevance_score = some (f i) := hreport e he i hiN hidx
  have hmem : f i ∈ results.filterMap (inRangeScoreAt s.length i) := by
    apply List.mem_filterMap.mpr
    refine ⟨e, he, ?_⟩
    simp [inRangeScoreAt, hidx, hsc, hiN]
  simp only [specScore]
  apply getLastD_eq_of_all_eq
  · exact List.ne_nil_of_mem hmem
  · intro x hx
    obtain ⟨e2, he2, hfa⟩ := List.mem_filterMap.mp hx
    obtain ⟨h1, h2, _⟩ := inRangeScoreAt_eq_some hfa
    have h3 := hreport e2 he2 i hiN h1
    rw [h3] at h2
    exact (Option.some.inj h2).symm

/-- C1 witness: the worked example of the spec, with the model returning
the two results out of order. -/
theorem predict_full_coverage_witness :
    predict (fun _ _ _ => .ok [⟨some 1, some 9⟩, ⟨some 0, some 2⟩])
        [("q", "A"), ("q", "B")] =
      some ((List.range 2).map (fun i => if i = 0 then (2 : ℚ) else 9)) :=
  predict_full_coverage _ _ (by simp) _ _ rfl (by decide) (by decide)
    (by decide)

/-- C2: if the model invocation raises, or the reconciliation loop raises,
predict returns `none`; by its very type it cannot propagate an
exception. -/
theorem predict_isolates_failures (rerank : RerankFn)
    (s : List (String × String)) (hne : s ≠ [])
    (herr : rerank (firstQuery s) (docBatch s) false = .error () ∨
      ∃ results, rerank (firstQuery s) (docBatch s) false = .ok results ∧
        reconcile s.length (List.replicate s.length (0 : ℚ)) results =
          .error ()) :
    predict rerank s = none := by
  simp only [predict, predictRun]
  rw [if_neg (not_isEmpty_of_ne_nil hne)]
  rcases herr with h | ⟨results, hok, hrec⟩
  · simp [h]
  · simp [hok, docBatch_length, hrec]

/-- C2 witness: a model call that raises. -/
theorem predict_isolates_failures_witness :
    predict (fun _ _ _ => .error ()) [("q", "A")] = none :=
  predict_isolates_failures _ _ (by simp) (Or.inl rfl)

/-- C3: the empty request yields `none` (not an empty vector) and the
model is never invoked. -/
theorem predict_empty_input (rerank : RerankFn) :
    predict rerank [] = none ∧ (predictRun rerank []).calls = [] :=
  ⟨rfl, rfl⟩

/-- C4: out-of-range result entries are discarded without aborting the
call — predict still returns a vector, that vector is the table of
last in-range writes, and deleting the out-of-range entries beforehand
produces the identical output. -/
theorem predict_out_of_range_discarded (rerank : RerankFn)
    (s : List (String × String)) (hne : s ≠ [])
    (results : List RankEntry)
    (hcall : rerank (firstQuery s) (docBatch s) false = .ok results)
    (hwf : wellFormed results) :
    predict rerank s =
        some ((List.range s.length).map (specScore s.length results)) ∧
      predict rerank s =
        predict (fun _ _ _ => .ok (results.filter (entryInRange s.length)))
          s := by
  have hwf2 : wellFormed (results.filter (entryInRange s.length)) :=
    fun e he => hwf e (List.mem_of_mem_filter he)
  have h1 : predict rerank s =
      some ((List.range s.length).map (specScore s.length results)) := by
    simp only [predict, predictRun_ok rerank s hne results hcall hwf]
  refine ⟨h1, ?_⟩
  rw [h1]
  have h2 : predict
      (fun _ _ _ => .ok (results.filter (entryInRange s.length))) s =
      some ((List.range s.length).map
        (specScore s.length (results.filter (entryInRange s.length)))) := by
    simp only [predict]
    rw [predictRun_ok
      (fun _ _ _ => .ok (results.filter (entryInRange s.length))) s hne
      (results.filter (entryInRange s.length)) rfl hwf2]
  rw [h2]
  congr 1
  apply List.map_congr_left
  intro i _
  simp only [specScore]
  rw [filterMap_filter_inRange]

/-- C4 witness: the out-of-range example of the spec (a single result with
index 5 against three documents yields the all-zero vector, identical to
what an empty result list yields). -/
theorem predict_out_of_range_discarded_witness :
    predict (fun _ _ _ => .ok [⟨some 5, some 99⟩])
        [("q", "A"), ("q", "B"), ("q", "C")] =
        some ((List.range 3).map (specScore 3 [⟨some 5, some 99⟩])) ∧
      predict (fun _ _ _ => .ok [⟨some 5, some 99⟩])
          [("q", "A"), ("q", "B"), ("q", "C")] =
        predict
          (fun _ _ _ =>
            .ok (([⟨some 5, some 99⟩] : List RankEntry).filter
              (entryInRange 3)))
          [("q", "A"), ("q", "B"), ("q", "C")] :=
  predict_out_of_range_discarded _ _ (by simp) _ rfl (by decide)

/-- C5: a position no in-range result entry addresses keeps the default
score 0, and the partial result set is not an error: predict still
returns a vector. -/
theorem predict_unmentioned_zero (rerank : RerankFn)
    (s : List (String × String)) (hne : s ≠ [])
    (results : List RankEntry)
    (hcall : rerank (firstQuery s) (docBatch s) false = .ok results)
    (hwf : wellFormed results) (i : Nat) (hi : i < s.length)
    (hunmentioned : ∀ e ∈ results, e.index ≠ some (i : Int)) :
    ∃ out, predict rerank s = some out ∧ i < out.length ∧
      out.getD i 0 = 0 := by
  refine ⟨(List.range s.length).map (specScore s.length results), ?_, ?_, ?_⟩
  · simp only [predict, predictRun_ok rerank s hne results hcall hwf]
  · simpa using hi
  · rw [getD_map_range s.length i hi]
    simp only [specScore]
    have hnil : results.filterMap (inRangeScoreAt s.length i) = [] := by
      apply List.eq_nil_iff_forall_not_mem.mpr
      intro x hx
      obtain ⟨e, he, hfa⟩ := List.mem_filterMap.mp hx
      obtain ⟨h1, _, _⟩ := inRangeScoreAt_eq_some hfa
      exact hunmentioned e he h1
    rw [hnil]
    rfl

/-- C5 witness: two documents, a result for index 0 only; position 1
stays 0. -/
theorem predict_unmentioned_zero_witness :
    ∃ out,
      predict (fun _ _ _ => .ok [⟨some 0, some 7⟩]) [("q", "A"), ("q", "B")] =
          some out ∧
        1 < out.length ∧ out.getD 1 0 = 0 :=
  predict_unmentioned_zero _ _ (by simp) _ rfl (by decide) 1 (by decide)
    (by decide)

/-- C6: whenever predict returns a list at all — whatever the model
returned — that list has exactly one score per input pair. -/
theorem predict_some_implies_length (rerank : RerankFn)
    (s : List (String × String)) (out : List ℚ)
    (hout : predict rerank s = some out) :
    out.length = s.length := by
  simp only [predict, predictRun] at hout
  split at hout
  · simp at hout
  · split at hout
    · simp at hout
    · split at hout
      · simp at hout
      · rename_i scores hrec
        simp only [Option.some.injEq] at hout
        subst hout
        have hlen := reconcile_length _ _ _ _ hrec
        simpa [docBatch] using hlen

/-- C6 witness: an empty result list against one document gives the
one-element vector. -/
theorem predict_some_implies_length_witness :
    ([(0 : ℚ)] : List ℚ).length =
      ([("q", "A")] : List (String × String)).length :=
  predict_some_implies_length (fun _ _ _ => .ok []) [("q", "A")] [0] rfl

/-- C7: a non-empty request triggers exactly one model invocation, whose
query is the first element of the first pair, whose documents are the
per-pair document fields in request order, and which does not request
embeddings. -/
theorem predict_single_model_call (rerank : RerankFn)
    (s : List (String × String)) (hne : s ≠ []) :
    (predictRun rerank s).calls = [(firstQuery s, docBatch s, false)] := by
  simp only [predictRun]
  rw [if_neg (not_isEmpty_of_ne_nil hne)]
  split
  · rfl
  · split
    · rfl
    · rfl

/-- C7 witness. -/
theorem predict_single_model_call_witness :
    (predictRun (fun _ _ _ => .ok []) [("q", "A"), ("q", "B")]).calls =
      [("q", ["A", "B"], false)] :=
  predict_single_model_call _ _ (by simp)

/-- C8: when several in-range entries address the same index, the returned
score there is the relevance score of the last of them in iteration
order; duplicates are not rejected — predict still returns a vector. -/
theorem predict_last_write_wins (rerank : RerankFn)
    (s : List (String × String)) (hne : s ≠ [])
    (pre post : List RankEntry) (e : RankEntry) (i : Nat) (hi : i < s.length)
    (sc : ℚ)
    (hcall : rerank (firstQuery s) (docBatch s) false = .ok (pre ++ e :: post))
    (hwf : wellFormed (pre ++ e :: post))
    (hidx : e.index = some (i : Int)) (hsc : e.relevance_score = some sc)
    (hdup : ∃ e2 ∈ pre, e2.index = some (i : Int))
    (hlast : ∀ e2 ∈ post, e2.index ≠ some (i : Int)) :
    ∃ out, predict rerank s = some out ∧ out.getD i 0 = sc := by
  refine ⟨(List.range s.length).map
    (specScore s.length (pre ++ e :: post)), ?_, ?_⟩
  · simp only [predict, predictRun_ok rerank s hne (pre ++ e :: post) hcall hwf]
  · rw [getD_map_range s.length i hi]
    simp only [specScore]
    rw [List.filterMap_append]
    have hpost : post.filterMap (inRangeScoreAt s.length i) = [] := by
      apply List.eq_nil_iff_forall_not_mem.mpr
      intro x hx
      obtain ⟨e2, he2, hfa⟩ := List.mem_filterMap.mp hx
      obtain ⟨h1, _, _⟩ := inRangeScoreAt_eq_some hfa
      exact hlast e2 he2 h1
    have hmid : inRangeScoreAt s.length i e = some sc := by
      simp [inRangeScoreAt, hidx, hsc, hi]
    simp only [List.filterMap_cons, hmid, hpost]
    exact getLastD_append_singleton sc _ 0

/-- C8 witness: two entries for index 0; the later score 7 wins over the
earlier score 3. -/
theorem predict_last_write_wins_witness :
    ∃ out,
      predict (fun _ _ _ => .ok [⟨some 0, some 3⟩, ⟨some 0, some 7⟩])
          [("q", "A")] =
        some out ∧ out.getD 0 0 = 7 :=
  predict_last_write_wins _ _ (by simp) [⟨some 0, some 3⟩] [] ⟨some 0, some 7⟩
    0 (by decide) 7 rfl (by decide) rfl rfl (by decide) (by decide)

/-- C9: the queries of all pairs after the first never influence the
output — two non-empty requests of equal length, with identical document
fields and identical first query, give identical results under any
model. -/
theorem predict_ignores_later_queries (rerank : RerankFn)
    (s t : List (String × String)) (hs : s ≠ []) (ht : t ≠ [])
    (hlen : s.length = t.length)
    (hdocs : s.map (fun p => p.2) = t.map (fun p => p.2))
    (hq : firstQuery s = firstQuery t) :
    predict rerank s = predict rerank t := by
  have hdb : docBatch s = docBatch t := hdocs
  simp only [predict, predictRun]
  rw [if_neg (not_isEmpty_of_ne_nil hs), if_neg (not_isEmpty_of_ne_nil ht),
    hq, hdb]

/-- C9 witness: the second pairs carry different queries; the outputs
coincide. -/
theorem predict_ignores_later_queries_witness :
    predict (fun _ _ _ => .ok [⟨some 0, some 1⟩])
        [("q", "A"), ("x", "B")] =
      predict (fun _ _ _ => .ok [⟨some 0, some 1⟩])
        [("q", "A"), ("y", "B")] :=
  predict_ignores_later_queries _ _ _ (by simp) (by simp) rfl rfl rfl
